import Mathlib

/-!
Verification of the fetchurl content-addressable cache.

This file gives a shallow embedding, in Lean 4, of the parts of the
fetchurl code base that the verified properties speak about:

* the digest registry (`internal/hashutil/hashutil.go`),
* the RFC 8941 string-list codec of the JavaScript SDK (`sdk/js/fetchurl.js`),
* the LRU eviction strategy (`internal/eviction/lru/lru.go`),
* the eviction manager tick (`internal/eviction/manager.go`),
* the local repository (`internal/repository/local.go`, both the
  `Put` writer and the `BeginWrite`/`commit` writer),
* the CAS HTTP handler (`internal/handler/handler.go` and its
  streaming revision),
* the client fetcher (`fetchurl.go`),
* the regex proxy rule (`internal/proxy/rule.go`).

Byte strings are modelled as `List Nat`; machine integers of the Go
code are modelled as `Int` (sizes, content lengths) or `Nat` (status
codes, counters); cryptographic hash functions are kept abstract as a
parameter `hashFn : String -> Bytes -> String` mapping a normalized
algorithm name and a byte string to its lowercase hex digest, since
every verified property is about the control flow around hashing, not
about SHA internals.
-/

namespace Fetchurl

/-- Byte strings of the Go and JS code, as lists of byte values. -/
abbrev Bytes := List Nat

/-! ## Named characters

A few characters that the embedded code compares against, given by
code point so that the embedding stays close to the rune comparisons
of the sources. -/

/-- The double-quote character, code point 34. -/
def dquote : Char := Char.ofNat 34

/-- The backslash character, code point 92. -/
def bslash : Char := Char.ofNat 92

/-- The space character, code point 32. -/
def spaceChar : Char := Char.ofNat 32

/-- The horizontal-tab character, code point 9. -/
def tabChar : Char := Char.ofNat 9

/-- The comma character, code point 44. -/
def commaChar : Char := Char.ofNat 44

/-- The slash character, code point 47. -/
def slashChar : Char := Char.ofNat 47

/-! ## Digest registry — `internal/hashutil/hashutil.go`

`NormalizeAlgo` lowercases the algorithm name and strips every
character outside `[a-z0-9]`; it is Go's `strings.Map` with the
per-rune function inlined.  Rune comparisons of the Go source
(`r >= 'A' && r <= 'Z'` etc.) are code-point comparisons, written here
on `Char.toNat`. -/

/-- One step of the `strings.Map` callback inside `NormalizeAlgo`:
uppercase ASCII is shifted down by 32 (`r + ('a' - 'A')`), lowercase
ASCII and digits are kept, everything else is dropped (`-1`). -/
def normalizeCharGo (c : Char) : Option Char :=
  if 65 ≤ c.toNat ∧ c.toNat ≤ 90 then some (Char.ofNat (c.toNat + 32))
  else if (97 ≤ c.toNat ∧ c.toNat ≤ 122) ∨ (48 ≤ c.toNat ∧ c.toNat ≤ 57) then some c
  else none

/-- Go `strings.Map` over the characters of the name: kept characters are
emitted, dropped characters disappear. -/
def normalizeAlgoCore (s : List Char) : List Char :=
  s.filterMap normalizeCharGo

/-- Embeds `hashutil.NormalizeAlgo`. -/
def NormalizeAlgo (s : String) : String :=
  ⟨normalizeAlgoCore s.data⟩

/-- The keys of the `hashutil` registry: `sha1`, `sha256`, `sha512`. -/
def registryAlgos : List String := ["sha1", "sha256", "sha512"]

/-- Embeds `hashutil.IsSupported`: registry lookup under the normalized name. -/
def IsSupported (name : String) : Bool :=
  registryAlgos.contains (NormalizeAlgo name)

/-- Modelled from the spec: the claimed characterization of
normalization — "the lowercase form of the input with every character
outside `[a-z0-9]` removed".  ASCII lowercasing maps code points
65..90 up by 32 and keeps all other characters. -/
def asciiLower (c : Char) : Char :=
  if 65 ≤ c.toNat ∧ c.toNat ≤ 90 then Char.ofNat (c.toNat + 32) else c

/-- Membership in `[a-z0-9]`, by code point. -/
def isLowerAlnum (c : Char) : Bool :=
  (97 ≤ c.toNat && c.toNat ≤ 122) || (48 ≤ c.toNat && c.toNat ≤ 57)

/-- Modelled from the spec: lowercase the whole input, then remove
every character outside `[a-z0-9]`. -/
def specNormalize (s : String) : String :=
  ⟨(s.data.map asciiLower).filter isLowerAlnum⟩

lemma toNat_ofNat_valid (n : Nat) (h : n < 55296) : (Char.ofNat n).toNat = n := by
  have hv : n.isValidChar := Or.inl h
  rw [Char.ofNat, dif_pos hv]
  rfl

lemma normalizeCharGo_fix (c d : Char) (h : normalizeCharGo c = some d) :
    normalizeCharGo d = some d := by
  unfold normalizeCharGo at h ⊢
  by_cases h1 : 65 ≤ c.toNat ∧ c.toNat ≤ 90
  · rw [if_pos h1, Option.some.injEq] at h
    subst h
    have ht : (Char.ofNat (c.toNat + 32)).toNat = c.toNat + 32 :=
      toNat_ofNat_valid _ (by omega)
    rw [ht, if_neg (by omega), if_pos (by omega)]
  · rw [if_neg h1] at h
    by_cases h2 : (97 ≤ c.toNat ∧ c.toNat ≤ 122) ∨ (48 ≤ c.toNat ∧ c.toNat ≤ 57)
    · rw [if_pos h2, Option.some.injEq] at h
      subst h
      have h3 : ¬ (65 ≤ c.toNat ∧ c.toNat ≤ 90) := by omega
      simp [h3, h2]
    · simp [h2] at h

lemma normalizeAlgoCore_idem (s : List Char) :
    normalizeAlgoCore (normalizeAlgoCore s) = normalizeAlgoCore s := by
  induction s with
  | nil => rfl
  | cons c rest ih =>
    unfold normalizeAlgoCore at ih ⊢
    rw [List.filterMap_cons]
    cases hc : normalizeCharGo c with
    | none => simpa [hc] using ih
    | some d =>
      rw [List.filterMap_cons, normalizeCharGo_fix c d hc]
      simpa using ih

lemma normalizeCharGo_eq_spec (c : Char) :
    normalizeCharGo c =
      if isLowerAlnum (asciiLower c) then some (asciiLower c) else none := by
  unfold normalizeCharGo asciiLower isLowerAlnum
  by_cases h1 : 65 ≤ c.toNat ∧ c.toNat ≤ 90
  · have ht : (Char.ofNat (c.toNat + 32)).toNat = c.toNat + 32 :=
      toNat_ofNat_valid _ (by omega)
    have h2 : (97 ≤ c.toNat + 32 && c.toNat + 32 ≤ 122) = true := by
      simp; omega
    simp [h1, ht, h2]
  · by_cases h2 : (97 ≤ c.toNat ∧ c.toNat ≤ 122) ∨ (48 ≤ c.toNat ∧ c.toNat ≤ 57)
    · have h3 : ((97 ≤ c.toNat && c.toNat ≤ 122) || (48 ≤ c.toNat && c.toNat ≤ 57)) = true := by
        simp; omega
      simp [h1, h2, h3]
    · have h3 : ((97 ≤ c.toNat && c.toNat ≤ 122) || (48 ≤ c.toNat && c.toNat ≤ 57)) = false := by
        simp; omega
      simp [h1, h2, h3]

lemma normalizeAlgoCore_eq_spec (s : List Char) :
    normalizeAlgoCore s = (s.map asciiLower).filter isLowerAlnum := by
  induction s with
  | nil => rfl
  | cons c rest ih =>
    unfold normalizeAlgoCore at ih ⊢
    rw [List.filterMap_cons, normalizeCharGo_eq_spec c, List.map_cons, List.filter_cons]
    by_cases h : isLowerAlnum (asciiLower c)
    · simp [h, ih]
    · simp [h, ih]

/-- C8.  `NormalizeAlgo` is idempotent, its output is exactly the
lowercase form of the input with every character outside `[a-z0-9]`
removed, and in particular `"SHA-256"` maps to `"sha256"`. -/
theorem normalizeAlgo_idempotent_spec :
    (∀ s : String, NormalizeAlgo (NormalizeAlgo s) = NormalizeAlgo s) ∧
    (∀ s : String, NormalizeAlgo s = specNormalize s) ∧
    NormalizeAlgo "SHA-256" = "sha256" := by
  refine ⟨?_, ?_, ?_⟩
  · intro s
    show (⟨normalizeAlgoCore (normalizeAlgoCore s.data)⟩ : String) =
      (⟨normalizeAlgoCore s.data⟩ : String)
    rw [normalizeAlgoCore_idem]
  · intro s
    show (⟨normalizeAlgoCore s.data⟩ : String) =
      (⟨(s.data.map asciiLower).filter isLowerAlnum⟩ : String)
    rw [normalizeAlgoCore_eq_spec]
  · decide

/-! ## RFC 8941 string-list codec — `sdk/js/fetchurl.js`

`encodeSourceUrls` quotes each URL, escaping backslash and double
quote, and joins with a comma and a space (JavaScript
`urls.map(...).join(', ')`).  `parseFetchurlServer` is the hand-rolled
character scanner of the SDK, translated phase by phase: the original
advances an index `i` through the string, which the embedding renders
as recursion on the remaining character suffix. -/

/-- The replacement applied inside the quoting: backslash and double
quote are escaped with a leading backslash, all other characters pass
through. -/
def escapeChar (c : Char) : List Char :=
  if c = bslash then [bslash, bslash]
  else if c = dquote then [bslash, dquote]
  else [c]

/-- JavaScript `url.replace(/\\/g, '\\\\').replace(/"/g, '\\"')` over a URL. -/
def escapeUrl (u : List Char) : List Char :=
  u.flatMap escapeChar

/-- One element of the encoded list: the escaped URL wrapped in
double quotes. -/
def quoteUrl (u : List Char) : List Char :=
  dquote :: escapeUrl u ++ [dquote]

/-- JavaScript `urls.map(quote).join(', ')`. -/
def encodeSourceUrlsCore : List (List Char) → List Char
  | [] => []
  | [u] => quoteUrl u
  | u :: v :: us => quoteUrl u ++ commaChar :: spaceChar :: encodeSourceUrlsCore (v :: us)

/-- Embeds `encodeSourceUrls` of `fetchurl.js`. -/
def encodeSourceUrls (urls : List String) : String :=
  ⟨encodeSourceUrlsCore (urls.map String.data)⟩

/-- The whitespace-skipping phase of the scanner: drop spaces and
tabs. -/
def skipWS : List Char → List Char
  | [] => []
  | c :: rest => if c = spaceChar ∨ c = tabChar then skipWS rest else c :: rest

/-- The item-skipping phase: advance past characters up to and
including the next comma (`while (v[i] !== ',') i++; if (i < len) i++`). -/
def skipToComma : List Char → List Char
  | [] => []
  | c :: rest => if c = commaChar then rest else skipToComma rest

/-- The quoted-string phase, applied to the characters after the
opening quote.  A backslash followed by any character takes that
character literally; a double quote ends the string; a lone trailing
backslash is taken literally; running out of input ends the string. -/
def parseQuoted : List Char → List Char × List Char
  | [] => ([], [])
  | c :: rest =>
    if c = bslash then
      match rest with
      | [] => ([bslash], [])
      | d :: rest2 =>
        let p := parseQuoted rest2
        (d :: p.1, p.2)
    else if c = dquote then ([], rest)
    else
      let p := parseQuoted rest
      (c :: p.1, p.2)

lemma skipWS_length_le (l : List Char) : (skipWS l).length ≤ l.length := by
  induction l with
  | nil => simp [skipWS]
  | cons c rest ih =>
    unfold skipWS
    by_cases h : c = spaceChar ∨ c = tabChar
    · simp only [h, if_true]
      exact Nat.le_succ_of_le ih
    · simp [h]

lemma skipToComma_length_le (l : List Char) : (skipToComma l).length ≤ l.length := by
  induction l with
  | nil => simp [skipToComma]
  | cons c rest ih =>
    unfold skipToComma
    by_cases h : c = commaChar
    · simp [h, Nat.le_succ_of_le]
    · simp only [h, if_false]
      exact Nat.le_succ_of_le ih

lemma skipToComma_cons_le (c : Char) (rest : List Char) :
    (skipToComma (c :: rest)).length ≤ rest.length := by
  unfold skipToComma
  by_cases h : c = commaChar
  · simp [h]
  · simp only [h, if_false]
    exact skipToComma_length_le rest

lemma dquote_ne_bslash : dquote ≠ bslash := by decide

lemma parseQuoted_nil : parseQuoted [] = ([], []) := rfl

lemma parseQuoted_bslash_nil : parseQuoted [bslash] = ([bslash], []) := by
  rw [parseQuoted.eq_def]
  simp

lemma parseQuoted_bslash (d : Char) (rest : List Char) :
    parseQuoted (bslash :: d :: rest) =
      (d :: (parseQuoted rest).1, (parseQuoted rest).2) := by
  rw [parseQuoted.eq_def]
  simp

lemma parseQuoted_dquote (rest : List Char) :
    parseQuoted (dquote :: rest) = ([], rest) := by
  rw [parseQuoted.eq_def]
  simp [dquote_ne_bslash]

lemma parseQuoted_other (c : Char) (rest : List Char)
    (h1 : c ≠ bslash) (h2 : c ≠ dquote) :
    parseQuoted (c :: rest) = (c :: (parseQuoted rest).1, (parseQuoted rest).2) := by
  rw [parseQuoted.eq_def]
  simp [h1, h2]

lemma parseQuoted_snd_length_le_aux (n : Nat) :
    ∀ l : List Char, l.length = n → (parseQuoted l).2.length ≤ l.length := by
  induction n using Nat.strong_induction_on with
  | _ n ih =>
    intro l hn
    cases l with
    | nil => simp [parseQuoted_nil]
    | cons c rest =>
      by_cases h1 : c = bslash
      · subst h1
        cases rest with
        | nil => simp [parseQuoted_bslash_nil]
        | cons d rest2 =>
          rw [parseQuoted_bslash]
          have hr : rest2.length < n := by
            rw [← hn]
            simp only [List.length_cons]
            omega
          have h2 := ih rest2.length hr rest2 rfl
          simp only [List.length_cons]
          omega
      · by_cases h2 : c = dquote
        · subst h2
          rw [parseQuoted_dquote]
          simp only [List.length_cons]
          omega
        · rw [parseQuoted_other c rest h1 h2]
          have hr : rest.length < n := by
            rw [← hn]
            simp only [List.length_cons]
            omega
          have h3 := ih rest.length hr rest rfl
          simp only [List.length_cons]
          omega

lemma parseQuoted_snd_length_le (l : List Char) : (parseQuoted l).2.length ≤ l.length :=
  parseQuoted_snd_length_le_aux l.length l rfl

/-- The outer loop of `parseFetchurlServer`: skip whitespace, then
either parse a quoted string (pushing it on the result) or skip the
unquoted item, and in both cases resume after the next comma. -/
def parseLoop (value : List Char) : List (List Char) :=
  match h : skipWS value with
  | [] => []
  | c :: rest =>
    if c = dquote then
      (parseQuoted rest).1 :: parseLoop (skipToComma (parseQuoted rest).2)
    else
      parseLoop (skipToComma (c :: rest))
termination_by value.length
decreasing_by
  · have h1 := skipToComma_length_le (parseQuoted rest).2
    have h2 := parseQuoted_snd_length_le rest
    have h3 := skipWS_length_le value
    rw [h] at h3
    simp only [List.length_cons] at h3
    omega
  · have h1 := skipToComma_cons_le c rest
    have h3 := skipWS_length_le value
    rw [h] at h3
    simp only [List.length_cons] at h3
    omega

/-- Embeds `parseFetchurlServer` of `fetchurl.js`. -/
def parseFetchurlServer (value : String) : List String :=
  (parseLoop value.data).map (fun l => (⟨l⟩ : String))

lemma skipWS_not_ws (c : Char) (l : List Char) (h : ¬ (c = spaceChar ∨ c = tabChar)) :
    skipWS (c :: l) = c :: l := by
  unfold skipWS
  simp [h]

lemma dquote_not_ws : ¬ (dquote = spaceChar ∨ dquote = tabChar) := by decide

lemma skipWS_space (l : List Char) : skipWS (spaceChar :: l) = skipWS l := by
  conv_lhs => rw [skipWS.eq_def]
  simp

lemma parseLoop_skipWS_congr (l₁ l₂ : List Char) (h : skipWS l₁ = skipWS l₂) :
    parseLoop l₁ = parseLoop l₂ := by
  conv_lhs => rw [parseLoop.eq_def]
  conv_rhs => rw [parseLoop.eq_def]
  rw [h]

lemma escapeChar_bslash : escapeChar bslash = [bslash, bslash] := by decide

lemma escapeChar_dquote : escapeChar dquote = [bslash, dquote] := by decide

lemma escapeChar_other (c : Char) (h1 : c ≠ bslash) (h2 : c ≠ dquote) :
    escapeChar c = [c] := by
  simp [escapeChar, h1, h2]

lemma parseQuoted_escape (u rest : List Char) :
    parseQuoted (escapeUrl u ++ dquote :: rest) = (u, rest) := by
  induction u with
  | nil =>
    show parseQuoted (dquote :: rest) = ([], rest)
    exact parseQuoted_dquote rest
  | cons c u ih =>
    have hcons : escapeUrl (c :: u) = escapeChar c ++ escapeUrl u := by
      simp [escapeUrl]
    rw [hcons]
    by_cases h1 : c = bslash
    · subst h1
      rw [escapeChar_bslash]
      have harr : ([bslash, bslash] ++ escapeUrl u) ++ dquote :: rest =
          bslash :: bslash :: (escapeUrl u ++ dquote :: rest) := by simp
      rw [harr, parseQuoted_bslash, ih]
    · by_cases h2 : c = dquote
      · subst h2
        rw [escapeChar_dquote]
        have harr : ([bslash, dquote] ++ escapeUrl u) ++ dquote :: rest =
            bslash :: dquote :: (escapeUrl u ++ dquote :: rest) := by simp
        rw [harr, parseQuoted_bslash, ih]
      · rw [escapeChar_other c h1 h2]
        have harr : ([c] ++ escapeUrl u) ++ dquote :: rest =
            c :: (escapeUrl u ++ dquote :: rest) := by simp
        rw [harr, parseQuoted_other c _ h1 h2, ih]

lemma parseLoop_quote (l : List Char) :
    parseLoop (dquote :: l) =
      (parseQuoted l).1 :: parseLoop (skipToComma (parseQuoted l).2) := by
  rw [parseLoop.eq_def]
  rw [skipWS_not_ws dquote l dquote_not_ws]
  simp

lemma parseLoop_nil : parseLoop [] = [] := by
  rw [parseLoop.eq_def]
  rfl

lemma skipToComma_comma (l : List Char) : skipToComma (commaChar :: l) = l := by
  rw [skipToComma.eq_def]
  simp

lemma parseLoop_encode (urls : List (List Char)) :
    parseLoop (encodeSourceUrlsCore urls) = urls := by
  induction urls with
  | nil => exact parseLoop_nil
  | cons u us ih =>
    cases us with
    | nil =>
      have h1 : encodeSourceUrlsCore [u] = dquote :: (escapeUrl u ++ [dquote]) := by
        simp [encodeSourceUrlsCore, quoteUrl]
      rw [h1, parseLoop_quote, parseQuoted_escape u []]
      show u :: parseLoop (skipToComma []) = [u]
      rw [show skipToComma [] = [] from rfl, parseLoop_nil]
    | cons v vs =>
      have h1 : encodeSourceUrlsCore (u :: v :: vs) =
          dquote :: (escapeUrl u ++
            dquote :: (commaChar :: spaceChar :: encodeSourceUrlsCore (v :: vs))) := by
        simp [encodeSourceUrlsCore, quoteUrl]
      rw [h1, parseLoop_quote, parseQuoted_escape]
      show u :: parseLoop (skipToComma
        (commaChar :: spaceChar :: encodeSourceUrlsCore (v :: vs))) = u :: v :: vs
      rw [skipToComma_comma]
      have hsp : parseLoop (spaceChar :: encodeSourceUrlsCore (v :: vs)) =
          parseLoop (encodeSourceUrlsCore (v :: vs)) :=
        parseLoop_skipWS_congr _ _ (skipWS_space _)
      rw [hsp, ih]

/-- C7.  Decoding the RFC 8941 encoding of any list of URL strings
(backslashes and double quotes included) returns the original list,
element for element and in order. -/
theorem sfv_roundtrip (urls : List String) :
    parseFetchurlServer (encodeSourceUrls urls) = urls := by
  show (parseLoop (encodeSourceUrlsCore (urls.map String.data))).map
    (fun l => (⟨l⟩ : String)) = urls
  rw [parseLoop_encode, List.map_map]
  have : (fun l => (⟨l⟩ : String)) ∘ String.data = id := by
    funext s
    rfl
  rw [this, List.map_id]

/-! ## LRU eviction strategy — `internal/eviction/lru/lru.go`

The Go `LRU` keeps a doubly-linked recency list (front = MRU, back =
LRU), an `items` map from key to list element and a `sizes` map from
key to byte size.  The embedding keeps the recency list as a Lean list
of entries (front first); the `items` map is the key-indexed view of
that list, and `sizes` is kept as an explicit association list so that
statements about "the list, the item map and the sizes" have a direct
referent. -/

/-- A recency-list entry (`lru.entry`). -/
structure Entry where
  key : String
  size : Int
deriving DecidableEq

/-- An eviction victim (`eviction.Victim`). -/
structure Victim where
  key : String
  size : Int
deriving DecidableEq

/-- The LRU strategy state. -/
structure LRU where
  list : List Entry
  sizes : List (String × Int)
deriving DecidableEq

/-- The victim record taken from a list entry. -/
def Entry.toVictim (e : Entry) : Victim :=
  ⟨e.key, e.size⟩

/-- Insert-or-overwrite on the `sizes` association list. -/
def sizesSet (m : List (String × Int)) (k : String) (v : Int) : List (String × Int) :=
  (k, v) :: m.filter (fun p => p.1 ≠ k)

/-- Embeds `LRU.OnAdd`: an existing key is moved to the front with its size
updated, returning the size delta; a new key is pushed to the front,
returning its size. -/
def LRU.OnAdd (l : LRU) (key : String) (size : Int) : LRU × Int :=
  match l.list.find? (fun e => e.key = key) with
  | some e =>
    (⟨⟨key, size⟩ :: l.list.filter (fun x => x.key ≠ key), sizesSet l.sizes key size⟩,
      size - e.size)
  | none =>
    (⟨⟨key, size⟩ :: l.list, sizesSet l.sizes key size⟩, size)

/-- Embeds `LRU.OnAccess`: move an existing key to the front. -/
def LRU.OnAccess (l : LRU) (key : String) : LRU :=
  match l.list.find? (fun e => e.key = key) with
  | some e => ⟨e :: l.list.filter (fun x => x.key ≠ key), l.sizes⟩
  | none => l

/-- Embeds `LRU.Remove`: drop the key from the list and both maps. -/
def LRU.Remove (l : LRU) (key : String) : LRU :=
  ⟨l.list.filter (fun x => x.key ≠ key), l.sizes.filter (fun p => p.1 ≠ key)⟩

/-- The scan of `GetVictims`, walking the recency list from the back
(the argument is the reversed list, back first) while the running size
still exceeds the target. -/
def victimsLoop : List Entry → Int → Int → List Victim
  | [], _, _ => []
  | e :: back, size, target =>
    if size > target then e.toVictim :: victimsLoop back (size - e.size) target
    else []

/-- Embeds `LRU.GetVictims`: read-only scan from the back of the recency
list; the state is returned unchanged (the Go method takes the lock,
walks `elem.Prev()` and mutates nothing). -/
def LRU.GetVictims (l : LRU) (currentSize targetSize : Int) : LRU × List Victim :=
  (l, victimsLoop l.list.reverse currentSize targetSize)

/-- Total recorded size of a victim list. -/
def sumSizes (vs : List Victim) : Int :=
  (vs.map Victim.size).sum

lemma victimsLoop_nil (s t : Int) : victimsLoop [] s t = [] := rfl

lemma victimsLoop_cons (e : Entry) (back : List Entry) (s t : Int) :
    victimsLoop (e :: back) s t =
      if s > t then e.toVictim :: victimsLoop back (s - e.size) t else [] := rfl

lemma sumSizes_nil : sumSizes [] = 0 := rfl

lemma sumSizes_cons (v : Victim) (vs : List Victim) :
    sumSizes (v :: vs) = v.size + sumSizes vs := by
  simp [sumSizes]

lemma victimsLoop_from_back (back : List Entry) (s t : Int) :
    victimsLoop back s t =
      (back.take (victimsLoop back s t).length).map Entry.toVictim := by
  induction back generalizing s with
  | nil => simp [victimsLoop_nil]
  | cons e rest ih =>
    rw [victimsLoop_cons]
    by_cases h : s > t
    · rw [if_pos h]
      simp only [List.length_cons, List.take_succ_cons, List.map_cons]
      rw [← ih (s - e.size)]
    · rw [if_neg h]
      simp

lemma victimsLoop_progress (back : List Entry) (s t : Int) :
    ∀ i, i < (victimsLoop back s t).length →
      s - sumSizes ((victimsLoop back s t).take i) > t := by
  induction back generalizing s with
  | nil => simp [victimsLoop_nil]
  | cons e rest ih =>
    rw [victimsLoop_cons]
    by_cases h : s > t
    · rw [if_pos h]
      intro i hi
      cases i with
      | zero => simpa [sumSizes_nil]
      | succ j =>
        simp only [List.length_cons] at hi
        have hj := ih (s - e.size) j (by omega)
        simp only [List.take_succ_cons, sumSizes_cons]
        have hv : e.toVictim.size = e.size := rfl
        rw [hv]
        omega
    · rw [if_neg h]
      simp

lemma victimsLoop_stop (back : List Entry) (s t : Int) :
    s - sumSizes (victimsLoop back s t) ≤ t ∨
      (victimsLoop back s t).length = back.length := by
  induction back generalizing s with
  | nil =>
    right
    rfl
  | cons e rest ih =>
    rw [victimsLoop_cons]
    by_cases h : s > t
    · rw [if_pos h]
      rcases ih (s - e.size) with h1 | h1
      · left
        rw [sumSizes_cons]
        have hv : e.toVictim.size = e.size := rfl
        rw [hv]
        omega
      · right
        simp only [List.length_cons]
        omega
    · rw [if_neg h]
      left
      rw [sumSizes_nil]
      omega

/-- C6.  `GetVictims` leaves the LRU state (recency list, item map
view and sizes map) unchanged, returns a back-to-front prefix of the
recency list converted to victims, keeps accumulating exactly while
the remaining size still exceeds the target, and stops as soon as the
remaining size is at or below the target (or the list is exhausted). -/
theorem lru_getVictims_spec (l : LRU) (c t : Int) :
    (l.GetVictims c t).1 = l ∧
    (l.GetVictims c t).2 =
      (l.list.reverse.take (l.GetVictims c t).2.length).map Entry.toVictim ∧
    (∀ i, i < (l.GetVictims c t).2.length →
      c - sumSizes ((l.GetVictims c t).2.take i) > t) ∧
    (c - sumSizes (l.GetVictims c t).2 ≤ t ∨
      (l.GetVictims c t).2.length = l.list.length) := by
  refine ⟨rfl, ?_, ?_, ?_⟩
  · exact victimsLoop_from_back l.list.reverse c t
  · exact victimsLoop_progress l.list.reverse c t
  · have h := victimsLoop_stop l.list.reverse c t
    simpa using h

/-- Closed instance of the `GetVictims` characterization: on a
two-entry LRU with current size 5 and target 2, the scan is
non-destructive and stops at or below the target. -/
theorem lru_getVictims_spec_witness :
    ((LRU.mk [⟨"a", 3⟩, ⟨"b", 2⟩] [("a", 3), ("b", 2)]).GetVictims 5 2).1 =
        LRU.mk [⟨"a", 3⟩, ⟨"b", 2⟩] [("a", 3), ("b", 2)] ∧
    5 - sumSizes ((((LRU.mk [⟨"a", 3⟩, ⟨"b", 2⟩]
        [("a", 3), ("b", 2)]).GetVictims 5 2)).2.take 0) > 2 ∧
    (5 - sumSizes (((LRU.mk [⟨"a", 3⟩, ⟨"b", 2⟩] [("a", 3), ("b", 2)]).GetVictims 5 2)).2 ≤ 2 ∨
      (((LRU.mk [⟨"a", 3⟩, ⟨"b", 2⟩] [("a", 3), ("b", 2)]).GetVictims 5 2)).2.length = 2) := by
  have h := lru_getVictims_spec (LRU.mk [⟨"a", 3⟩, ⟨"b", 2⟩] [("a", 3), ("b", 2)]) 5 2
  exact ⟨h.1, h.2.2.1 0 (by decide), h.2.2.2⟩

/-! ## Eviction manager — `internal/eviction/manager.go`

The store-backed `Manager` revision: `RunEviction` loads the atomic
`currentBytes`, takes the maximum `BytesToFree` over the policies
(policies that error are logged and skipped), clamps the target at
zero, asks the strategy for victims, and then, per victim, calls
`store.Delete`, `strategy.Remove` and decrements `currentBytes` by the
victim's recorded size.  The store is modelled as the list of keys of
the files present in the cache directory; `LocalRepository.Delete`
(`internal/repository/local.go`) treats a missing file as success.
Side effects are returned as an explicit action trace so that
"exactly once per victim" is a statement about the trace. -/

/-- The only `os.Remove` failure relevant to `Delete`: the file does
not exist. -/
inductive OsErr where
  | notExist
deriving DecidableEq

/-- Embeds `os.Remove`: drop the key if present, report `notExist` otherwise. -/
def osRemove (fs : List String) (key : String) : List String × Option OsErr :=
  if fs.contains key then (fs.erase key, none) else (fs, some OsErr.notExist)

/-- Embeds `LocalRepository.Delete`: `os.Remove` with `IsNotExist` errors
swallowed. -/
def localDelete (fs : List String) (key : String) : List String × Option OsErr :=
  match osRemove fs key with
  | (fs2, some OsErr.notExist) => (fs2, none)
  | r => r

/-- One recorded side effect of an eviction tick. -/
inductive EvictAction where
  | deleteStore (key : String)
  | removeStrategy (key : String)
  | decrement (size : Int)
deriving DecidableEq

/-- The manager state visible to a tick: the atomic byte counter, the
strategy, and the store contents. -/
structure ManagerState where
  currentBytes : Int
  strategy : LRU
  store : List String
deriving DecidableEq

/-- The per-victim body of the `RunEviction` loop: delete from the
store (errors only logged), remove from the strategy, subtract the
victim's recorded size from the counter. -/
def evictVictims : List Victim → ManagerState → ManagerState × List EvictAction
  | [], st => (st, [])
  | v :: vs, st =>
    let r := evictVictims vs (ManagerState.mk (st.currentBytes - v.size)
      (st.strategy.Remove v.key) (localDelete st.store v.key).1)
    (r.1, EvictAction.deleteStore v.key :: EvictAction.removeStrategy v.key ::
      EvictAction.decrement v.size :: r.2)

/-- The maximum over the policies' `BytesToFree`, starting from zero;
policies that return an error (`none`) are skipped. -/
def maxToFree (policies : List (Int → Option Int)) (current : Int) : Int :=
  policies.foldl
    (fun acc p =>
      match p current with
      | none => acc
      | some f => if f > acc then f else acc)
    0

/-- The clamped eviction target of a tick. -/
def evictionTarget (policies : List (Int → Option Int)) (current : Int) : Int :=
  if current - maxToFree policies current < 0 then 0
  else current - maxToFree policies current

/-- The victims a tick will process: none when no policy wants bytes
freed, else whatever the strategy hands back. -/
def selectedVictims (policies : List (Int → Option Int)) (st : ManagerState) : List Victim :=
  if maxToFree policies st.currentBytes ≤ 0 then []
  else (st.strategy.GetVictims st.currentBytes
    (evictionTarget policies st.currentBytes)).2

/-- Embeds `Manager.RunEviction`. -/
def RunEviction (policies : List (Int → Option Int)) (st : ManagerState) :
    ManagerState × List EvictAction :=
  let current := st.currentBytes
  if maxToFree policies current ≤ 0 then (st, [])
  else
    let victims := (st.strategy.GetVictims current (evictionTarget policies current)).2
    if victims.isEmpty then (st, [])
    else evictVictims victims st

/-- The three actions the loop body performs for one victim. -/
def victimActions (v : Victim) : List EvictAction :=
  [EvictAction.deleteStore v.key, EvictAction.removeStrategy v.key,
    EvictAction.decrement v.size]

lemma evictVictims_cons (v : Victim) (vs : List Victim) (st : ManagerState) :
    evictVictims (v :: vs) st =
      ((evictVictims vs (ManagerState.mk (st.currentBytes - v.size)
        (st.strategy.Remove v.key) (localDelete st.store v.key).1)).1,
       EvictAction.deleteStore v.key :: EvictAction.removeStrategy v.key ::
         EvictAction.decrement v.size ::
         (evictVictims vs (ManagerState.mk (st.currentBytes - v.size)
           (st.strategy.Remove v.key) (localDelete st.store v.key).1)).2) := rfl

lemma evictVictims_spec (vs : List Victim) (st : ManagerState) :
    (evictVictims vs st).2 = vs.flatMap victimActions ∧
    (evictVictims vs st).1.currentBytes = st.currentBytes - sumSizes vs := by
  induction vs generalizing st with
  | nil => simp [evictVictims, sumSizes_nil]
  | cons v vs ih =>
    have h := ih (ManagerState.mk (st.currentBytes - v.size)
      (st.strategy.Remove v.key) (localDelete st.store v.key).1)
    rw [evictVictims_cons]
    constructor
    · rw [h.1]
      simp [victimActions]
    · rw [h.2, sumSizes_cons]
      show st.currentBytes - v.size - sumSizes vs = _
      omega

lemma localDelete_eq (fs : List String) (key : String) :
    localDelete fs key = (fs.erase key, none) := by
  unfold localDelete osRemove
  by_cases h : fs.contains key
  · rw [if_pos h]
  · rw [if_neg h]
    have he : fs.erase key = fs := List.erase_of_not_mem (by simpa using h)
    rw [he]

/-- C5.  On every eviction tick the recorded action trace is exactly
`delete`, `remove`, `decrement` — once each, in that order — for each
victim the strategy selected and for nothing else, the byte counter
drops by exactly the total recorded size of those victims, and the
store's delete treats an absent file as success (it is the plain
erase, never an error). -/
theorem runEviction_per_victim_once (policies : List (Int → Option Int))
    (st : ManagerState) :
    (RunEviction policies st).2 =
      (selectedVictims policies st).flatMap victimActions ∧
    (RunEviction policies st).1.currentBytes =
      st.currentBytes - sumSizes (selectedVictims policies st) ∧
    (∀ (fs : List String) (key : String), localDelete fs key = (fs.erase key, none)) := by
  refine ⟨?_, ?_, fun fs key => localDelete_eq fs key⟩
  · unfold RunEviction selectedVictims
    by_cases h1 : maxToFree policies st.currentBytes ≤ 0
    · simp [h1]
    · rw [if_neg h1, if_neg h1]
      by_cases h2 : ((st.strategy.GetVictims st.currentBytes
          (evictionTarget policies st.currentBytes)).2).isEmpty
      · rw [if_pos h2]
        rw [List.isEmpty_iff] at h2
        rw [h2]
        rfl
      · rw [if_neg h2]
        exact (evictVictims_spec _ st).1
  · unfold RunEviction selectedVictims
    by_cases h1 : maxToFree policies st.currentBytes ≤ 0
    · simp [h1, sumSizes_nil]
    · rw [if_neg h1, if_neg h1]
      by_cases h2 : ((st.strategy.GetVictims st.currentBytes
          (evictionTarget policies st.currentBytes)).2).isEmpty
      · rw [if_pos h2]
        rw [List.isEmpty_iff] at h2
        rw [h2, sumSizes_nil]
        show st.currentBytes = st.currentBytes - 0
        omega
      · rw [if_neg h2]
        exact (evictVictims_spec _ st).2

/-! ## Local repository — `internal/repository/local.go`

The committed entries of the cache are modelled as an association
list from `(algo, hex)` to the stored bytes; the shard directory
`hex[0:2]` is a layout detail of the same key.  `hashFn` abstracts
`hashutil.GetHasher(algo)` followed by hex encoding: it takes the
*normalized* algorithm name (which is what the registry lookup uses)
and the streamed bytes, and returns the lowercase hex digest. -/

/-- The committed files of the cache, keyed by `(algo, hex)`. -/
abbrev Finals := List ((String × String) × Bytes)

/-- Lookup of a committed entry (`os.Stat`/`os.Open` on the final
path). -/
def finalsLookup (fs : Finals) (algo hash : String) : Option Bytes :=
  match fs.find? (fun p => p.1 = (algo, hash)) with
  | some p => some p.2
  | none => none

/-- Embeds `os.Rename(tmp, finalPath)`: the final path now holds the bytes,
replacing any previous content. -/
def finalsInsert (fs : Finals) (algo hash : String) (b : Bytes) : Finals :=
  ((algo, hash), b) :: fs.filter (fun p => p.1 ≠ (algo, hash))

/-- The invariant of claim C1: every committed file's bytes hash,
under its (normalized) algorithm, to the hex that names it. -/
def FinalsInv (hashFn : String → Bytes → String) (fs : Finals) : Prop :=
  ∀ p ∈ fs, hashFn (NormalizeAlgo p.1.1) p.2 = p.1.2

/-- Outcome of `LocalRepository.Put`. -/
inductive PutResult where
  | okExisting
  | fetchErr
  | algoErr
  | mismatch (actual : String)
  | okStored
deriving DecidableEq

/-- Embeds `LocalRepository.Put` (the single-flight fetch-verify-rename
writer): double-check existence, run the fetcher, hash the bytes while
writing the temp file, verify the digest against the requested hex,
and only then rename the temp file onto the final path.  The fetcher
is abstracted by its result (`none` = it returned an error). -/
def LocalRepository.Put (hashFn : String → Bytes → String) (fs : Finals)
    (algo hash : String) (fetched : Option Bytes) : Finals × PutResult :=
  if (finalsLookup fs algo hash).isSome then (fs, PutResult.okExisting)
  else
    match fetched with
    | none => (fs, PutResult.fetchErr)
    | some bytes =>
      if ¬ IsSupported algo then (fs, PutResult.algoErr)
      else if hashFn (NormalizeAlgo algo) bytes ≠ hash then
        (fs, PutResult.mismatch (hashFn (NormalizeAlgo algo) bytes))
      else (finalsInsert fs algo hash bytes, PutResult.okStored)

/-! ## `BeginWrite` / `commit` — sharded `local.go` revision

`BeginWrite` creates a temp file inside the cache root and hands back
a `commit` closure guarded by a `committed` flag.  The closure's
filesystem effects are modelled explicitly: closing the temp file
(double close errors in Go), `MkdirAll` of the shard directory,
`os.Rename` (which fails if the temp file is gone), the flag flip and
the eviction notification (`Add(relKey, size)`, recorded in a log;
the post-rename `os.Stat` succeeds because the final file exists). -/

/-- The state a `commit` closure closes over, plus the filesystem
bits it can touch. -/
structure CommitState where
  committed : Bool
  tmpClosed : Bool
  tmpExists : Bool
  finals : Finals
  evictionLog : List ((String × String) × Int)
  dirsMade : Nat
deriving DecidableEq

/-- Errors `commit` can report. -/
inductive CommitErr where
  | closeErr
  | renameErr
deriving DecidableEq

/-- The `commit` closure returned by `BeginWrite(algo, hash)`, for a
temp file currently holding `content`. -/
def commitFn (algo hash : String) (content : Bytes) (st : CommitState) :
    CommitState × Option CommitErr :=
  if st.committed then (st, none)
  else if st.tmpClosed then (st, some CommitErr.closeErr)
  else if ¬ st.tmpExists then
    (⟨false, true, st.tmpExists, st.finals, st.evictionLog, st.dirsMade + 1⟩,
      some CommitErr.renameErr)
  else
    (⟨true, true, false, finalsInsert st.finals algo hash content,
      st.evictionLog ++ [((algo, hash), (content.length : Int))], st.dirsMade + 1⟩,
      none)

/-- The state right after `BeginWrite` succeeds: fresh open temp
file, nothing committed yet. -/
def beginWriteState (fs : Finals) : CommitState :=
  ⟨false, false, true, fs, [], 0⟩

/-! ## CAS handler, streaming revision — `tryFetchFromSource`

The leader's per-source attempt: `GET` the source (the outcome is
abstracted as `Option SourceResp`, `none` when the request itself
failed), reject non-200 responses and responses without a
`Content-Length` (Go reports a missing length as `-1`), then begin the
write, set headers, write `200`, tee the body into response, temp
file and hasher, verify digest and size (mismatch aborts the
connection — an unwinding panic, not an error return), and commit. -/

/-- A source's HTTP response: status, `Content-Length` (−1 when the
header is missing), the bytes the body yielded, and whether the body
read failed after those bytes. -/
structure SourceResp where
  status : Nat
  contentLength : Int
  body : Bytes
  readErr : Bool
deriving DecidableEq

/-- What the response writer saw during one attempt. -/
structure TryLog where
  headersWritten : Bool
  respBytes : Bytes
  tempCreated : Bool
deriving DecidableEq

/-- Outcome of one `tryFetchFromSource` call. -/
inductive TryResult where
  | reqErr
  | badStatus (code : Nat)
  | noLength
  | streamErr
  | abortHashMismatch
  | abortSizeMismatch
  | committed
deriving DecidableEq

/-- Embeds `CASHandler.tryFetchFromSource` of the streaming revision. -/
def tryFetchFromSource (hashFn : String → Bytes → String) (fs : Finals)
    (algo hash : String) (resp : Option SourceResp) : Finals × TryResult × TryLog :=
  match resp with
  | none => (fs, TryResult.reqErr, ⟨false, [], false⟩)
  | some r =>
    if r.status ≠ 200 then (fs, TryResult.badStatus r.status, ⟨false, [], false⟩)
    else if r.contentLength = -1 then (fs, TryResult.noLength, ⟨false, [], false⟩)
    else if r.readErr then (fs, TryResult.streamErr, ⟨true, r.body, true⟩)
    else
      if hashFn (NormalizeAlgo algo) r.body ≠ hash then
        (fs, TryResult.abortHashMismatch, ⟨true, r.body, true⟩)
      else if r.contentLength > 0 ∧ (r.body.length : Int) ≠ r.contentLength then
        (fs, TryResult.abortSizeMismatch, ⟨true, r.body, true⟩)
      else
        (finalsInsert fs algo hash r.body, TryResult.committed, ⟨true, r.body, true⟩)

/-- Outcome of the whole leader loop. -/
inductive StreamOutcome where
  | success
  | aborted (r : TryResult)
  | failedAfterHeaders (r : TryResult)
  | allFailed
deriving DecidableEq

/-- Embeds `CASHandler.fetchAndStream` of the streaming revision: try each
source in order; an abort (digest or size mismatch panic) unwinds
immediately; a failure after headers were written stops the loop with
a wrapped error; a clean failure moves on to the next source. -/
def fetchAndStream (hashFn : String → Bytes → String) (fs : Finals)
    (algo hash : String) :
    List (Option SourceResp) → Finals × StreamOutcome × List TryResult
  | [] => (fs, StreamOutcome.allFailed, [])
  | resp :: rest =>
    match (tryFetchFromSource hashFn fs algo hash resp).2.1 with
    | TryResult.committed =>
      ((tryFetchFromSource hashFn fs algo hash resp).1, StreamOutcome.success,
        [TryResult.committed])
    | TryResult.abortHashMismatch =>
      ((tryFetchFromSource hashFn fs algo hash resp).1,
        StreamOutcome.aborted TryResult.abortHashMismatch, [TryResult.abortHashMismatch])
    | TryResult.abortSizeMismatch =>
      ((tryFetchFromSource hashFn fs algo hash resp).1,
        StreamOutcome.aborted TryResult.abortSizeMismatch, [TryResult.abortSizeMismatch])
    | res =>
      if (tryFetchFromSource hashFn fs algo hash resp).2.2.headersWritten then
        ((tryFetchFromSource hashFn fs algo hash resp).1,
          StreamOutcome.failedAfterHeaders res, [res])
      else
        ((fetchAndStream hashFn (tryFetchFromSource hashFn fs algo hash resp).1
            algo hash rest).1,
         (fetchAndStream hashFn (tryFetchFromSource hashFn fs algo hash resp).1
            algo hash rest).2.1,
         res :: (fetchAndStream hashFn (tryFetchFromSource hashFn fs algo hash resp).1
            algo hash rest).2.2)

/-! ## CAS handler — `internal/handler/handler.go` (`Put`-based revision)

The revision wired by `internal/app/server.go`: path
`/fetch/{algo}/{hash}`, local `Get` first, and on a miss an explicit
`HEAD` check that returns 404 before any fetch is attempted.  The
fetch service behind `Local.Put` is abstracted by its result
(`fetched : Option Bytes`). -/

/-- HTTP methods the handler distinguishes. -/
inductive Method where
  | get
  | head
deriving DecidableEq

/-- Go `strings.Trim(path, "/")`: drop leading and trailing occurrences
of the cut character. -/
def trimChar (c : Char) (s : List Char) : List Char :=
  ((s.dropWhile (fun x => x = c)).reverse.dropWhile (fun x => x = c)).reverse

/-- Go `strings.Split(s, sep)` for a one-character separator: `n`
separators give `n + 1` fields, and the empty string gives one empty
field. -/
def splitOnChar (sep : Char) : List Char → List (List Char)
  | [] => [[]]
  | c :: rest =>
    if c = sep then [] :: splitOnChar sep rest
    else
      match splitOnChar sep rest with
      | [] => [[c]]
      | p :: ps => (c :: p) :: ps

/-- The parsed path segments of a request:
`strings.Split(strings.Trim(path, "/"), "/")`. -/
def pathParts (path : String) : List String :=
  (splitOnChar slashChar (trimChar slashChar path.data)).map (fun l => (⟨l⟩ : String))

/-- The handler's response, as far as the verified properties are
concerned. -/
inductive ServeResult where
  | badRequest
  | unsupported
  | hitServed (body : Bytes)
  | headMiss404
  | fetchFailed404
  | filledServed (body : Bytes)
  | retrieveErr500
deriving DecidableEq

/-- The miss path of `ServeHTTP`: call `Local.Put` with the fetch
service, then serve the freshly stored entry. -/
def serveMiss (hashFn : String → Bytes → String) (fs : Finals)
    (algo hash : String) (fetched : Option Bytes) : Finals × ServeResult × Bool :=
  match LocalRepository.Put hashFn fs algo hash fetched with
  | (fs2, PutResult.okExisting) | (fs2, PutResult.okStored) =>
    match finalsLookup fs2 algo hash with
    | some body => (fs2, ServeResult.filledServed body, true)
    | none => (fs2, ServeResult.retrieveErr500, true)
  | (fs2, _) => (fs2, ServeResult.fetchFailed404, true)

/-- Embeds `CASHandler.ServeHTTP` of the `Put`-based revision.  The returned
`Bool` records whether a fill was started, that is whether
`Local.Put` (and with it the fetch service) was invoked. -/
def ServeHTTP (hashFn : String → Bytes → String) (fs : Finals) (method : Method)
    (path : String) (fetched : Option Bytes) : Finals × ServeResult × Bool :=
  if (pathParts path).length < 3 ∨ (pathParts path).getD 0 "" ≠ "fetch" then
    (fs, ServeResult.badRequest, false)
  else if ¬ IsSupported ((pathParts path).getD 1 "") then
    (fs, ServeResult.unsupported, false)
  else
    match finalsLookup fs ((pathParts path).getD 1 "") ((pathParts path).getD 2 "") with
    | some body => (fs, ServeResult.hitServed body, false)
    | none =>
      if method = Method.head then (fs, ServeResult.headMiss404, false)
      else
        serveMiss hashFn fs ((pathParts path).getD 1 "") ((pathParts path).getD 2 "")
          fetched

/-! ## Client fetcher — `fetchurl.go`

`Fetcher.Fetch` tries the configured servers, then the direct source
URLs, sharing one counting writer `cw` across all attempts.  A single
attempt (`doRequest`) is abstracted by its observable outcome: the
request may fail outright, return a non-200 status, fail mid-copy
after some bytes, or deliver a body that is then digest-checked. -/

/-- The client error taxonomy of `fetchurl.go`. -/
inductive FErr where
  | unsupportedAlgorithm (algo : String)
  | hashMismatch (expected actual : String)
  | partialWrite (cause : FErr)
  | allSourcesFailed (cause : Option FErr)
  | httpStatus (code : Nat)
  | reqErr
  | streamErr

/-- The observable outcome of one HTTP attempt. -/
inductive AttemptOutcome where
  | reqFail
  | resp (status : Nat) (body : Bytes) (readErr : Bool)
deriving DecidableEq

/-- Embeds `Fetcher.doRequest`: returns the number of bytes written to the
shared counting writer and the attempt's error, if any.  A non-200
response writes nothing; a mid-copy failure has already teed `body`
bytes into `out`; a complete body is hashed and compared. -/
def doRequest (hashFn : String → Bytes → String) (algo expected : String) :
    AttemptOutcome → Nat × Option FErr
  | AttemptOutcome.reqFail => (0, some FErr.reqErr)
  | AttemptOutcome.resp status body readErr =>
    if status ≠ 200 then (0, some (FErr.httpStatus status))
    else if readErr then (body.length, some FErr.streamErr)
    else
      let actual := hashFn (NormalizeAlgo algo) body
      if actual ≠ expected then (body.length, some (FErr.hashMismatch expected actual))
      else (body.length, none)

/-- How one of the two attempt loops of `Fetch` ends: an early
`return` from inside the loop (`done none` = success, `done (some e)`
= `ErrPartialWrite` wrapping), or falling through with the last
error. -/
inductive LoopExit where
  | done (r : Option FErr)
  | fellThrough (lastErr : Option FErr)

/-- One of the two attempt loops of `Fetch`, carrying the counting
writer's running total and the last error across iterations.  Returns
the exit, the updated byte count, and the attempts actually
executed. -/
def fetchLoop (hashFn : String → Bytes → String) (algo expected : String) :
    List AttemptOutcome → Nat → Option FErr →
    LoopExit × Nat × List AttemptOutcome
  | [], cwN, lastErr => (LoopExit.fellThrough lastErr, cwN, [])
  | a :: rest, cwN, _ =>
    match (doRequest hashFn algo expected a).2 with
    | none => (LoopExit.done none, cwN + (doRequest hashFn algo expected a).1, [a])
    | some e =>
      if cwN + (doRequest hashFn algo expected a).1 > 0 then
        (LoopExit.done (some (FErr.partialWrite e)),
          cwN + (doRequest hashFn algo expected a).1, [a])
      else
        ((fetchLoop hashFn algo expected rest
            (cwN + (doRequest hashFn algo expected a).1) (some e)).1,
         (fetchLoop hashFn algo expected rest
            (cwN + (doRequest hashFn algo expected a).1) (some e)).2.1,
         a :: (fetchLoop hashFn algo expected rest
            (cwN + (doRequest hashFn algo expected a).1) (some e)).2.2)

/-- The final result of `Fetcher.Fetch`. -/
inductive FetchResult where
  | ok
  | err (e : FErr)

/-- Embeds `Fetcher.Fetch`: unsupported algorithms abort before any attempt;
then the server loop runs, then the direct-URL loop, both over the
same counting writer; if both fall through, `ErrAllSourcesFailed`
wraps the last error.  The second component lists the attempts that
were actually executed. -/
def Fetch (hashFn : String → Bytes → String) (algo hash : String)
    (servers urls : List AttemptOutcome) : FetchResult × List AttemptOutcome :=
  if ¬ IsSupported algo then (FetchResult.err (FErr.unsupportedAlgorithm algo), [])
  else
    match fetchLoop hashFn algo hash servers 0 none with
    | (LoopExit.done none, _, tried) => (FetchResult.ok, tried)
    | (LoopExit.done (some e), _, tried) => (FetchResult.err e, tried)
    | (LoopExit.fellThrough lastErr, cwN, tried) =>
      match fetchLoop hashFn algo hash urls cwN lastErr with
      | (LoopExit.done none, _, tried2) => (FetchResult.ok, tried ++ tried2)
      | (LoopExit.done (some e), _, tried2) => (FetchResult.err e, tried ++ tried2)
      | (LoopExit.fellThrough lastErr2, _, tried2) =>
        (FetchResult.err (FErr.allSourcesFailed lastErr2), tried ++ tried2)

/-! ## Regex proxy rule — `internal/proxy/rule.go`

A compiled Go regex is abstracted by the observables `NewRegexRule`
uses: `SubexpNames()` (index 0 is always the empty name) and
`FindStringSubmatch` (`none` when the pattern does not match;
otherwise one entry per group, index 0 the whole match, with
non-participating groups reported as the empty string). -/

/-- One candidate produced by a rule (`proxy.RuleResult`). -/
structure RuleResult where
  algo : String
  hash : String
deriving DecidableEq

/-- The abstraction of a compiled `regexp.Regexp`. -/
structure GoRegex where
  subexpNames : List String
  find : String → Option (List String)

/-- Go map assignment `m[k] = v`: last write wins. -/
def mapInsert (m : List (String × String)) (k v : String) : List (String × String) :=
  (m.filter (fun p => p.1 ≠ k)) ++ [(k, v)]

/-- The `for i, name := range re.SubexpNames()` loop building the
named-group map: skips index 0 and empty names. -/
def buildSubmatchMapAux (i : Nat) :
    List String → List String → List (String × String) → List (String × String)
  | n :: ns, m :: ms, acc =>
    buildSubmatchMapAux (i + 1) ns ms (if i ≠ 0 ∧ n ≠ "" then mapInsert acc n m else acc)
  | _, _, acc => acc

/-- The named-group map of a match. -/
def buildSubmatchMap (names ms : List String) : List (String × String) :=
  buildSubmatchMapAux 0 names ms []

/-- Go map read `m[k]`. -/
def mapLookup (m : List (String × String)) (k : String) : Option String :=
  match m with
  | [] => none
  | p :: rest => if p.1 = k then some p.2 else mapLookup rest k

/-- The hex candidate one match yields: the named group `hash` when
the pattern defines one, else the first capturing group when there is
one, else the empty string. -/
def selectHash (names ms : List String) : String :=
  match mapLookup (buildSubmatchMap names ms) "hash" with
  | some h => h
  | none => if ms.length > 1 then ms.getD 1 "" else ""

/-- Embeds `proxy.NewRegexRule`: applied to a URL: no match gives no
candidates; otherwise the named group `hash` is preferred, falling
back to the first capturing group, and an empty selection gives no
candidates. -/
def NewRegexRule (re : GoRegex) (algo : String) (u : String) : List RuleResult :=
  match re.find u with
  | none => []
  | some ms =>
    if selectHash re.subexpNames ms = "" then []
    else [⟨algo, selectHash re.subexpNames ms⟩]

/-! ## Theorems about the repository, handler and client -/

lemma finalsInsert_inv (hashFn : String → Bytes → String) (fs : Finals)
    (algo hash : String) (b : Bytes)
    (hinv : FinalsInv hashFn fs) (hb : hashFn (NormalizeAlgo algo) b = hash) :
    FinalsInv hashFn (finalsInsert fs algo hash b) := by
  intro p hp
  unfold finalsInsert at hp
  rcases List.mem_cons.mp hp with h | h
  · subst h
    exact hb
  · exact hinv p (List.mem_of_mem_filter h)

lemma put_inv (hashFn : String → Bytes → String) (fs : Finals)
    (algo hash : String) (fetched : Option Bytes) (hinv : FinalsInv hashFn fs) :
    FinalsInv hashFn (LocalRepository.Put hashFn fs algo hash fetched).1 := by
  unfold LocalRepository.Put
  split
  · exact hinv
  · split
    · exact hinv
    · split
      · exact hinv
      · split
        · exact hinv
        · rename_i hok
          exact finalsInsert_inv hashFn fs algo hash _ hinv (not_ne_iff.mp hok)

lemma tryFetch_inv (hashFn : String → Bytes → String) (fs : Finals)
    (algo hash : String) (resp : Option SourceResp) (hinv : FinalsInv hashFn fs) :
    FinalsInv hashFn (tryFetchFromSource hashFn fs algo hash resp).1 := by
  unfold tryFetchFromSource
  split
  · exact hinv
  · split
    · exact hinv
    · split
      · exact hinv
      · split
        · exact hinv
        · split
          · exact hinv
          · split
            · exact hinv
            · rename_i r hst hcl hre hok hsz
              exact finalsInsert_inv hashFn fs algo hash _ hinv (not_ne_iff.mp hok)

lemma put_some_eq (hashFn : String → Bytes → String) (fs : Finals)
    (algo hash : String) (bytes : Bytes) :
    LocalRepository.Put hashFn fs algo hash (some bytes) =
      if (finalsLookup fs algo hash).isSome then (fs, PutResult.okExisting)
      else if ¬ IsSupported algo then (fs, PutResult.algoErr)
      else if hashFn (NormalizeAlgo algo) bytes ≠ hash then
        (fs, PutResult.mismatch (hashFn (NormalizeAlgo algo) bytes))
      else (finalsInsert fs algo hash bytes, PutResult.okStored) := rfl

lemma tryFetch_some_eq (hashFn : String → Bytes → String) (fs : Finals)
    (algo hash : String) (r : SourceResp) :
    tryFetchFromSource hashFn fs algo hash (some r) =
      if r.status ≠ 200 then
        (fs, TryResult.badStatus r.status, (⟨false, [], false⟩ : TryLog))
      else if r.contentLength = -1 then
        (fs, TryResult.noLength, (⟨false, [], false⟩ : TryLog))
      else if r.readErr then (fs, TryResult.streamErr, (⟨true, r.body, true⟩ : TryLog))
      else if hashFn (NormalizeAlgo algo) r.body ≠ hash then
        (fs, TryResult.abortHashMismatch, (⟨true, r.body, true⟩ : TryLog))
      else if r.contentLength > 0 ∧ (r.body.length : Int) ≠ r.contentLength then
        (fs, TryResult.abortSizeMismatch, (⟨true, r.body, true⟩ : TryLog))
      else (finalsInsert fs algo hash r.body, TryResult.committed,
        (⟨true, r.body, true⟩ : TryLog)) := rfl

lemma put_mismatch_no_commit (hashFn : String → Bytes → String) (fs : Finals)
    (algo hash : String) (bytes : Bytes)
    (hne : hashFn (NormalizeAlgo algo) bytes ≠ hash) :
    (LocalRepository.Put hashFn fs algo hash (some bytes)).1 = fs ∧
    (LocalRepository.Put hashFn fs algo hash (some bytes)).2 ≠ PutResult.okStored := by
  rw [put_some_eq]
  by_cases h1 : (finalsLookup fs algo hash).isSome
  · rw [if_pos h1]
    exact ⟨rfl, by simp⟩
  · rw [if_neg h1]
    by_cases h2 : ¬ IsSupported algo = true
    · rw [if_pos h2]
      exact ⟨rfl, by simp⟩
    · rw [if_neg h2, if_pos hne]
      exact ⟨rfl, by simp⟩

lemma tryFetch_mismatch_no_commit (hashFn : String → Bytes → String) (fs : Finals)
    (algo hash : String) (r : SourceResp)
    (hne : hashFn (NormalizeAlgo algo) r.body ≠ hash) :
    (tryFetchFromSource hashFn fs algo hash (some r)).1 = fs ∧
    (tryFetchFromSource hashFn fs algo hash (some r)).2.1 ≠ TryResult.committed := by
  rw [tryFetch_some_eq]
  by_cases h1 : r.status ≠ 200
  · rw [if_pos h1]
    exact ⟨rfl, by simp⟩
  · rw [if_neg h1]
    by_cases h2 : r.contentLength = -1
    · rw [if_pos h2]
      exact ⟨rfl, by simp⟩
    · rw [if_neg h2]
      by_cases h3 : r.readErr = true
      · rw [if_pos h3]
        exact ⟨rfl, by simp⟩
      · rw [if_neg h3, if_pos hne]
        exact ⟨rfl, by simp⟩

/-- C1.  Both committing writers preserve the content-address
invariant — every committed file's bytes hash, under its algorithm, to
the hex naming it — and neither `Put` nor the streaming handler's
verify-then-commit ever commits when the computed digest differs from
the requested hex: the store is returned unchanged and the result is
not a commit. -/
theorem put_and_stream_commit_verified (hashFn : String → Bytes → String)
    (fs : Finals) (algo hash : String) :
    (∀ fetched, FinalsInv hashFn fs →
      FinalsInv hashFn (LocalRepository.Put hashFn fs algo hash fetched).1) ∧
    (∀ resp, FinalsInv hashFn fs →
      FinalsInv hashFn (tryFetchFromSource hashFn fs algo hash resp).1) ∧
    (∀ bytes, hashFn (NormalizeAlgo algo) bytes ≠ hash →
      (LocalRepository.Put hashFn fs algo hash (some bytes)).1 = fs ∧
      (LocalRepository.Put hashFn fs algo hash (some bytes)).2 ≠ PutResult.okStored) ∧
    (∀ r : SourceResp, hashFn (NormalizeAlgo algo) r.body ≠ hash →
      (tryFetchFromSource hashFn fs algo hash (some r)).1 = fs ∧
      (tryFetchFromSource hashFn fs algo hash (some r)).2.1 ≠ TryResult.committed) :=
  ⟨fun fetched hinv => put_inv hashFn fs algo hash fetched hinv,
   fun resp hinv => tryFetch_inv hashFn fs algo hash resp hinv,
   fun bytes hne => put_mismatch_no_commit hashFn fs algo hash bytes hne,
   fun r hne => tryFetch_mismatch_no_commit hashFn fs algo hash r hne⟩

/-- Closed instance of C1: with a concrete digest function, a
mismatched `Put` on the empty store stores nothing, and the invariant
is preserved. -/
theorem put_and_stream_commit_verified_witness :
    FinalsInv (fun _ _ => "aa")
      (LocalRepository.Put (fun _ _ => "aa") [] "sha256" "bb" (some [7])).1 ∧
    (LocalRepository.Put (fun _ _ => "aa") [] "sha256" "bb" (some [7])).1 = [] ∧
    (LocalRepository.Put (fun _ _ => "aa") [] "sha256" "bb"
      (some [7])).2 ≠ PutResult.okStored := by
  have h := put_and_stream_commit_verified (fun _ _ => "aa") [] "sha256" "bb"
  have hinv : FinalsInv (fun _ _ => "aa") [] := by
    intro p hp
    simp at hp
  have hne : (fun (_ : String) (_ : Bytes) => "aa") (NormalizeAlgo "sha256") [7] ≠ "bb" := by
    decide
  exact ⟨h.1 (some [7]) hinv, (h.2.2.1 [7] hne).1, (h.2.2.1 [7] hne).2⟩

lemma tryFetch_reject (hashFn : String → Bytes → String) (fs : Finals)
    (algo hash : String) (r : SourceResp)
    (hbad : r.status ≠ 200 ∨ r.contentLength = -1) :
    tryFetchFromSource hashFn fs algo hash (some r) =
      (fs, if r.status ≠ 200 then TryResult.badStatus r.status else TryResult.noLength,
        (⟨false, [], false⟩ : TryLog)) := by
  rw [tryFetch_some_eq]
  by_cases h1 : r.status ≠ 200
  · rw [if_pos h1, if_pos h1]
  · rw [if_neg h1, if_neg h1]
    rcases hbad with h | h
    · exact absurd h h1
    · rw [if_pos h]

lemma fetchAndStream_cons_eq (hashFn : String → Bytes → String) (fs : Finals)
    (algo hash : String) (resp : Option SourceResp) (rest : List (Option SourceResp)) :
    fetchAndStream hashFn fs algo hash (resp :: rest) =
      match (tryFetchFromSource hashFn fs algo hash resp).2.1 with
      | TryResult.committed =>
        ((tryFetchFromSource hashFn fs algo hash resp).1, StreamOutcome.success,
          [TryResult.committed])
      | TryResult.abortHashMismatch =>
        ((tryFetchFromSource hashFn fs algo hash resp).1,
          StreamOutcome.aborted TryResult.abortHashMismatch, [TryResult.abortHashMismatch])
      | TryResult.abortSizeMismatch =>
        ((tryFetchFromSource hashFn fs algo hash resp).1,
          StreamOutcome.aborted TryResult.abortSizeMismatch, [TryResult.abortSizeMismatch])
      | res =>
        if (tryFetchFromSource hashFn fs algo hash resp).2.2.headersWritten then
          ((tryFetchFromSource hashFn fs algo hash resp).1,
            StreamOutcome.failedAfterHeaders res, [res])
        else
          ((fetchAndStream hashFn (tryFetchFromSource hashFn fs algo hash resp).1
              algo hash rest).1,
           (fetchAndStream hashFn (tryFetchFromSource hashFn fs algo hash resp).1
              algo hash rest).2.1,
           res :: (fetchAndStream hashFn (tryFetchFromSource hashFn fs algo hash resp).1
              algo hash rest).2.2) := rfl

lemma fetchAndStream_cons_skip (hashFn : String → Bytes → String) (fs : Finals)
    (algo hash : String) (r : SourceResp) (rest : List (Option SourceResp))
    (hbad : r.status ≠ 200 ∨ r.contentLength = -1) :
    fetchAndStream hashFn fs algo hash (some r :: rest) =
      ((fetchAndStream hashFn fs algo hash rest).1,
       (fetchAndStream hashFn fs algo hash rest).2.1,
       (tryFetchFromSource hashFn fs algo hash (some r)).2.1 ::
         (fetchAndStream hashFn fs algo hash rest).2.2) := by
  have he := tryFetch_reject hashFn fs algo hash r hbad
  rw [fetchAndStream_cons_eq, he]
  by_cases h1 : r.status ≠ 200
  · rw [if_pos h1]
    rfl
  · rw [if_neg h1]
    rfl

/-- C4.  A source whose response has a status other than 200, or no
`Content-Length`, is rejected before anything happens: the store is
unchanged, no temp file is created, no headers or body bytes are
written to the response, the per-source result is the corresponding
rejection, and the leader loop simply moves on to the remaining
sources. -/
theorem leader_rejects_bad_source (hashFn : String → Bytes → String)
    (fs : Finals) (algo hash : String) (r : SourceResp)
    (hbad : r.status ≠ 200 ∨ r.contentLength = -1) :
    (tryFetchFromSource hashFn fs algo hash (some r)).1 = fs ∧
    (tryFetchFromSource hashFn fs algo hash (some r)).2.2 =
      (⟨false, [], false⟩ : TryLog) ∧
    ((tryFetchFromSource hashFn fs algo hash (some r)).2.1 =
        TryResult.badStatus r.status ∨
      (tryFetchFromSource hashFn fs algo hash (some r)).2.1 = TryResult.noLength) ∧
    (∀ rest, fetchAndStream hashFn fs algo hash (some r :: rest) =
      ((fetchAndStream hashFn fs algo hash rest).1,
       (fetchAndStream hashFn fs algo hash rest).2.1,
       (tryFetchFromSource hashFn fs algo hash (some r)).2.1 ::
         (fetchAndStream hashFn fs algo hash rest).2.2)) := by
  have he := tryFetch_reject hashFn fs algo hash r hbad
  refine ⟨?_, ?_, ?_, fun rest => fetchAndStream_cons_skip hashFn fs algo hash r rest hbad⟩
  · rw [he]
  · rw [he]
  · rw [he]
    by_cases h1 : r.status ≠ 200
    · left
      rw [if_pos h1]
    · right
      rw [if_neg h1]

/-- Closed instance of C4: a 404 response is rejected with the store
untouched and the loop moving on. -/
theorem leader_rejects_bad_source_witness :
    (tryFetchFromSource (fun _ _ => "aa") [] "sha256" "bb"
      (some ⟨404, 3, [], false⟩)).1 = [] ∧
    (tryFetchFromSource (fun _ _ => "aa") [] "sha256" "bb"
      (some ⟨404, 3, [], false⟩)).2.2 = (⟨false, [], false⟩ : TryLog) ∧
    fetchAndStream (fun _ _ => "aa") [] "sha256" "bb" [some ⟨404, 3, [], false⟩] =
      ((fetchAndStream (fun _ _ => "aa") [] "sha256" "bb" []).1,
       (fetchAndStream (fun _ _ => "aa") [] "sha256" "bb" []).2.1,
       (tryFetchFromSource (fun _ _ => "aa") [] "sha256" "bb"
          (some ⟨404, 3, [], false⟩)).2.1 ::
         (fetchAndStream (fun _ _ => "aa") [] "sha256" "bb" []).2.2) := by
  have h := leader_rejects_bad_source (fun _ _ => "aa") [] "sha256" "bb"
    ⟨404, 3, [], false⟩ (Or.inl (by decide))
  exact ⟨h.1, h.2.1, h.2.2.2 []⟩

/-- C3.  A `HEAD` request for a digest that is not in the local cache
answers 404 and never enters the miss path: the store is unchanged and
no fill is started — `Local.Put`, and with it the fetch service, is
never invoked. -/
theorem head_miss_no_fill (hashFn : String → Bytes → String) (fs : Finals)
    (path : String) (fetched : Option Bytes)
    (hlen : 3 ≤ (pathParts path).length)
    (hfetch : (pathParts path).getD 0 "" = "fetch")
    (hsup : IsSupported ((pathParts path).getD 1 ""))
    (hmiss : finalsLookup fs ((pathParts path).getD 1 "")
      ((pathParts path).getD 2 "") = none) :
    ServeHTTP hashFn fs Method.head path fetched = (fs, ServeResult.headMiss404, false) := by
  unfold ServeHTTP
  rw [if_neg (not_or.mpr ⟨by omega, not_not_intro hfetch⟩)]
  rw [if_neg (by simpa using hsup)]
  rw [hmiss]
  rfl

/-- Closed instance of C3: `HEAD /fetch/sha256/ab` on the empty cache
is a 404 with no fill. -/
theorem head_miss_no_fill_witness :
    ServeHTTP (fun _ _ => "aa") [] Method.head "/fetch/sha256/ab" none =
      ([], ServeResult.headMiss404, false) :=
  head_miss_no_fill (fun _ _ => "aa") [] "/fetch/sha256/ab" none
    (by decide) (by decide) (by decide) (by decide)

/-- C9.  The `commit` closure returned by `BeginWrite` is idempotent:
a first successful call (necessarily from an uncommitted state) closes
the temp file, makes the shard directory, renames onto the final path,
marks the writer committed and notifies eviction exactly once; once a
call has succeeded, every further call returns `nil` with the state —
filesystem, eviction log, directories — completely untouched. -/
theorem beginWrite_commit_idempotent (algo hash : String) (content : Bytes)
    (st : CommitState) :
    (st.committed = false → (commitFn algo hash content st).2 = none →
      (commitFn algo hash content st).1 =
        ⟨true, true, false, finalsInsert st.finals algo hash content,
          st.evictionLog ++ [((algo, hash), (content.length : Int))],
          st.dirsMade + 1⟩) ∧
    ((commitFn algo hash content st).2 = none →
      commitFn algo hash content (commitFn algo hash content st).1 =
        ((commitFn algo hash content st).1, none)) ∧
    (st.committed = true → commitFn algo hash content st = (st, none)) := by
  refine ⟨?_, ?_, ?_⟩
  · intro hc hok
    unfold commitFn at hok ⊢
    rw [hc] at hok ⊢
    simp only [Bool.false_eq_true, if_false] at hok ⊢
    by_cases h1 : st.tmpClosed = true
    · rw [if_pos h1] at hok
      simp at hok
    · rw [if_neg h1] at hok ⊢
      by_cases h2 : st.tmpExists = true
      · rw [if_neg (not_not_intro h2)] at hok ⊢
      · rw [if_pos (by simpa using h2)] at hok
        simp at hok
  · intro hok
    by_cases hc : st.committed = true
    · unfold commitFn at hok ⊢
      rw [if_pos hc] at hok ⊢
      rw [if_pos hc]
    · have hc2 : st.committed = false := by
        cases h : st.committed
        · rfl
        · exact absurd h hc
      unfold commitFn at hok ⊢
      rw [hc2] at hok ⊢
      simp only [Bool.false_eq_true, if_false] at hok ⊢
      by_cases h1 : st.tmpClosed = true
      · rw [if_pos h1] at hok
        simp at hok
      · rw [if_neg h1] at hok ⊢
        by_cases h2 : st.tmpExists = true
        · rw [if_neg (not_not_intro h2)] at hok ⊢
          rfl
        · rw [if_pos (by simpa using h2)] at hok
          simp at hok
  · intro hc
    unfold commitFn
    rw [if_pos hc]

/-- Closed instance of C9: committing a fresh `BeginWrite` writer once
succeeds, and the second call is a no-op returning `nil`. -/
theorem beginWrite_commit_idempotent_witness :
    (commitFn "sha256" "ab" [7, 9] (beginWriteState [])).1 =
      ⟨true, true, false, finalsInsert [] "sha256" "ab" [7, 9],
        [(("sha256", "ab"), (2 : Int))], 1⟩ ∧
    commitFn "sha256" "ab" [7, 9] (commitFn "sha256" "ab" [7, 9] (beginWriteState [])).1 =
      ((commitFn "sha256" "ab" [7, 9] (beginWriteState [])).1, none) := by
  have h := beginWrite_commit_idempotent "sha256" "ab" [7, 9] (beginWriteState [])
  refine ⟨?_, h.2.1 (by decide)⟩
  have h1 := h.1 (by decide) (by decide)
  rw [h1]
  rfl

lemma fetchLoop_cons_eq (hashFn : String → Bytes → String) (algo hash : String)
    (a : AttemptOutcome) (rest : List AttemptOutcome) (cwN : Nat) (lastErr : Option FErr) :
    fetchLoop hashFn algo hash (a :: rest) cwN lastErr =
      match (doRequest hashFn algo hash a).2 with
      | none => (LoopExit.done none, cwN + (doRequest hashFn algo hash a).1, [a])
      | some e =>
        if cwN + (doRequest hashFn algo hash a).1 > 0 then
          (LoopExit.done (some (FErr.partialWrite e)),
            cwN + (doRequest hashFn algo hash a).1, [a])
        else
          ((fetchLoop hashFn algo hash rest
              (cwN + (doRequest hashFn algo hash a).1) (some e)).1,
           (fetchLoop hashFn algo hash rest
              (cwN + (doRequest hashFn algo hash a).1) (some e)).2.1,
           a :: (fetchLoop hashFn algo hash rest
              (cwN + (doRequest hashFn algo hash a).1) (some e)).2.2) := rfl

lemma fetchLoop_partialStop (hashFn : String → Bytes → String) (algo hash : String)
    (pre post : List AttemptOutcome) (a : AttemptOutcome) (e : FErr)
    (hpre : ∀ b ∈ pre, (doRequest hashFn algo hash b).1 = 0 ∧
      (doRequest hashFn algo hash b).2.isSome)
    (ha : 0 < (doRequest hashFn algo hash a).1)
    (hae : (doRequest hashFn algo hash a).2 = some e) :
    ∀ lastErr, fetchLoop hashFn algo hash (pre ++ a :: post) 0 lastErr =
      (LoopExit.done (some (FErr.partialWrite e)),
        (doRequest hashFn algo hash a).1, pre ++ [a]) := by
  induction pre with
  | nil =>
    intro lastErr
    show fetchLoop hashFn algo hash (a :: post) 0 lastErr = _
    rw [fetchLoop_cons_eq, hae]
    show (if 0 + (doRequest hashFn algo hash a).1 > 0 then
        (LoopExit.done (some (FErr.partialWrite e)),
          0 + (doRequest hashFn algo hash a).1, [a])
      else
        ((fetchLoop hashFn algo hash post
            (0 + (doRequest hashFn algo hash a).1) (some e)).1,
         (fetchLoop hashFn algo hash post
            (0 + (doRequest hashFn algo hash a).1) (some e)).2.1,
         a :: (fetchLoop hashFn algo hash post
            (0 + (doRequest hashFn algo hash a).1) (some e)).2.2)) = _
    rw [if_pos (by omega)]
    simp
  | cons b pre ih =>
    intro lastErr
    obtain ⟨hb1, hb2⟩ := hpre b (List.mem_cons_self b pre)
    obtain ⟨eb, heb⟩ := Option.isSome_iff_exists.mp hb2
    show fetchLoop hashFn algo hash (b :: (pre ++ a :: post)) 0 lastErr = _
    rw [fetchLoop_cons_eq, heb, hb1]
    show (if 0 + 0 > 0 then
        (LoopExit.done (some (FErr.partialWrite eb)), 0 + 0, [b])
      else
        ((fetchLoop hashFn algo hash (pre ++ a :: post) (0 + 0) (some eb)).1,
         (fetchLoop hashFn algo hash (pre ++ a :: post) (0 + 0) (some eb)).2.1,
         b :: (fetchLoop hashFn algo hash (pre ++ a :: post) (0 + 0) (some eb)).2.2)) = _
    rw [if_neg (by omega)]
    simp only [Nat.add_zero]
    rw [ih (fun x hx => hpre x (List.mem_cons_of_mem b hx)) (some eb)]
    simp

lemma fetchLoop_cleanFails (hashFn : String → Bytes → String) (algo hash : String)
    (l : List AttemptOutcome)
    (h : ∀ b ∈ l, (doRequest hashFn algo hash b).1 = 0 ∧
      (doRequest hashFn algo hash b).2.isSome) :
    ∀ lastErr, ∃ le, fetchLoop hashFn algo hash l 0 lastErr =
      (LoopExit.fellThrough le, 0, l) := by
  induction l with
  | nil =>
    intro lastErr
    exact ⟨lastErr, rfl⟩
  | cons b rest ih =>
    intro lastErr
    obtain ⟨hb1, hb2⟩ := h b (List.mem_cons_self b rest)
    obtain ⟨eb, heb⟩ := Option.isSome_iff_exists.mp hb2
    obtain ⟨le, hle⟩ := ih (fun x hx => h x (List.mem_cons_of_mem b hx)) (some eb)
    refine ⟨le, ?_⟩
    rw [fetchLoop_cons_eq, heb, hb1]
    show (if 0 + 0 > 0 then
        (LoopExit.done (some (FErr.partialWrite eb)), 0 + 0, [b])
      else
        ((fetchLoop hashFn algo hash rest (0 + 0) (some eb)).1,
         (fetchLoop hashFn algo hash rest (0 + 0) (some eb)).2.1,
         b :: (fetchLoop hashFn algo hash rest (0 + 0) (some eb)).2.2)) = _
    rw [if_neg (by omega)]
    simp only [Nat.add_zero]
    rw [hle]

/-- C2.  If an attempt — a server or a direct source — fails after at
least one byte reached the output writer, `Fetch` returns
`ErrPartialWrite` wrapping that attempt's error immediately: the
attempts actually executed stop at the failing one, and the remaining
servers and source URLs (including ones that would have succeeded) are
never tried.  The first conjunct places the failing attempt among the
servers (the direct URLs are arbitrary and untouched); the second
places it among the direct URLs after all servers failed cleanly. -/
theorem fetch_partial_write_stops (hashFn : String → Bytes → String)
    (algo hash : String) (pre post urls : List AttemptOutcome)
    (a : AttemptOutcome) (e : FErr)
    (hsup : IsSupported algo)
    (hpre : ∀ b ∈ pre, (doRequest hashFn algo hash b).1 = 0 ∧
      (doRequest hashFn algo hash b).2.isSome)
    (ha : 0 < (doRequest hashFn algo hash a).1)
    (hae : (doRequest hashFn algo hash a).2 = some e) :
    Fetch hashFn algo hash (pre ++ a :: post) urls =
      (FetchResult.err (FErr.partialWrite e), pre ++ [a]) ∧
    (∀ spre : List AttemptOutcome,
      (∀ b ∈ spre, (doRequest hashFn algo hash b).1 = 0 ∧
        (doRequest hashFn algo hash b).2.isSome) →
      Fetch hashFn algo hash spre (pre ++ a :: post) =
        (FetchResult.err (FErr.partialWrite e), spre ++ (pre ++ [a]))) := by
  constructor
  · unfold Fetch
    rw [if_neg (by simpa using hsup)]
    rw [fetchLoop_partialStop hashFn algo hash pre post a e hpre ha hae none]
  · intro spre hspre
    unfold Fetch
    rw [if_neg (by simpa using hsup)]
    obtain ⟨le, hle⟩ := fetchLoop_cleanFails hashFn algo hash spre hspre none
    rw [hle]
    show (match fetchLoop hashFn algo hash (pre ++ a :: post) 0 le with
      | (LoopExit.done none, _, tried2) => (FetchResult.ok, spre ++ tried2)
      | (LoopExit.done (some e2), _, tried2) => (FetchResult.err e2, spre ++ tried2)
      | (LoopExit.fellThrough lastErr2, _, tried2) =>
        (FetchResult.err (FErr.allSourcesFailed lastErr2), spre ++ tried2)) = _
    rw [fetchLoop_partialStop hashFn algo hash pre post a e hpre ha hae le]

/-- Closed instance of C2 (the spec's scenario 5): the server answers
200 with a wrong-hash body, one byte is written, `Fetch` returns
`ErrPartialWrite` wrapping the hash mismatch, and the direct source —
which is listed — is never tried. -/
theorem fetch_partial_write_stops_witness :
    Fetch (fun _ _ => "xx") "sha256" "hh"
      [AttemptOutcome.resp 500 [] false, AttemptOutcome.resp 200 [7] false]
      [AttemptOutcome.reqFail] =
      (FetchResult.err (FErr.partialWrite (FErr.hashMismatch "hh" "xx")),
        [AttemptOutcome.resp 500 [] false, AttemptOutcome.resp 200 [7] false]) := by
  have h := fetch_partial_write_stops (fun _ _ => "xx") "sha256" "hh"
    [AttemptOutcome.resp 500 [] false] [] [AttemptOutcome.reqFail]
    (AttemptOutcome.resp 200 [7] false) (FErr.hashMismatch "hh" "xx")
    (by decide) (by decide) (by decide) rfl
  exact h.1

lemma mapLookup_mapInsert_ne (m : List (String × String)) (k v q : String)
    (hq : q ≠ k) : mapLookup (mapInsert m k v) q = mapLookup m q := by
  unfold mapInsert
  induction m with
  | nil =>
    show mapLookup [(k, v)] q = mapLookup [] q
    unfold mapLookup
    rw [if_neg (fun hkq => hq hkq.symm)]
    rfl
  | cons p rest ih =>
    by_cases hpk : p.1 ≠ k
    · rw [List.filter_cons_of_pos (by simpa using hpk)]
      show mapLookup (p :: (rest.filter (fun x => x.1 ≠ k) ++ [(k, v)])) q = _
      unfold mapLookup
      by_cases hpq : p.1 = q
      · rw [if_pos hpq, if_pos hpq]
      · rw [if_neg hpq, if_neg hpq]
        exact ih
    · rw [List.filter_cons_of_neg (by simpa using hpk)]
      rw [ih]
      have hpk2 : p.1 = k := not_not.mp hpk
      show mapLookup rest q = mapLookup (p :: rest) q
      have hstep : mapLookup (p :: rest) q =
          if p.1 = q then some p.2 else mapLookup rest q := rfl
      rw [hstep, if_neg (fun hpq => hq (hpk2 ▸ hpq).symm)]

lemma buildAux_no_hash (names : List String) :
    ∀ (ms : List String) (i : Nat) (acc : List (String × String)),
    mapLookup acc "hash" = none → "hash" ∉ names →
    mapLookup (buildSubmatchMapAux i names ms acc) "hash" = none := by
  induction names with
  | nil =>
    intro ms i acc hacc _
    cases ms with
    | nil => exact hacc
    | cons m ms2 => exact hacc
  | cons n ns ih =>
    intro ms i acc hacc hn
    cases ms with
    | nil => exact hacc
    | cons m ms2 =>
      show mapLookup (buildSubmatchMapAux (i + 1) ns ms2
        (if i ≠ 0 ∧ n ≠ "" then mapInsert acc n m else acc)) "hash" = none
      have hn1 : n ≠ "hash" := fun hcontra =>
        hn (hcontra ▸ List.mem_cons_self n ns)
      have hn2 : "hash" ∉ ns := fun hcontra => hn (List.mem_cons_of_mem n hcontra)
      apply ih ms2 (i + 1)
      · by_cases hcond : i ≠ 0 ∧ n ≠ ""
        · rw [if_pos hcond]
          rw [mapLookup_mapInsert_ne acc n m "hash" (fun hbad => hn1 hbad.symm)]
          exact hacc
        · rw [if_neg hcond]
          exact hacc
      · exact hn2

lemma buildSubmatchMap_no_hash (names ms : List String)
    (h : "hash" ∉ names.drop 1) :
    mapLookup (buildSubmatchMap names ms) "hash" = none := by
  unfold buildSubmatchMap
  cases names with
  | nil =>
    cases ms with
    | nil => rfl
    | cons m ms2 => rfl
  | cons n ns =>
    cases ms with
    | nil => rfl
    | cons m ms2 =>
      show mapLookup (buildSubmatchMapAux 1 ns ms2
        (if (0 : Nat) ≠ 0 ∧ n ≠ "" then mapInsert [] n m else [])) "hash" = none
      rw [if_neg (by simp)]
      exact buildAux_no_hash ns ms2 1 [] rfl (by simpa using h)

/-- C10.  For a regex rule whose pattern matches but defines no
capturing group named `hash` (`SubexpNames()[0]` is always the
anonymous whole-match name in Go, so group names live in the tail),
and which has at least one capturing group, the selected hex candidate
is the text of the first capturing group, and the rule returns no
candidate exactly when that selected capture is the empty string; a
URL the pattern does not match never yields a candidate. -/
theorem regexRule_first_group_fallback (re : GoRegex) (algo u : String)
    (ms : List String)
    (hfind : re.find u = some ms)
    (hnames : "hash" ∉ re.subexpNames.drop 1)
    (hlen : 1 < ms.length) :
    NewRegexRule re algo u =
      (if ms.getD 1 "" = "" then [] else [⟨algo, ms.getD 1 ""⟩]) ∧
    (NewRegexRule re algo u = [] ↔ ms.getD 1 "" = "") ∧
    (∀ u2, re.find u2 = none → NewRegexRule re algo u2 = []) := by
  have hsel : selectHash re.subexpNames ms = ms.getD 1 "" := by
    unfold selectHash
    rw [buildSubmatchMap_no_hash re.subexpNames ms hnames]
    rw [if_pos hlen]
  have hmain : NewRegexRule re algo u =
      (if ms.getD 1 "" = "" then [] else [⟨algo, ms.getD 1 ""⟩]) := by
    unfold NewRegexRule
    rw [hfind]
    show (if selectHash re.subexpNames ms = "" then []
      else [(⟨algo, selectHash re.subexpNames ms⟩ : RuleResult)]) = _
    rw [hsel]
  refine ⟨hmain, ?_, ?_⟩
  · rw [hmain]
    by_cases hempty : ms.getD 1 "" = ""
    · rw [if_pos hempty]
      exact iff_of_true rfl hempty
    · rw [if_neg hempty]
      exact iff_of_false (by simp) hempty
  · intro u2 hno
    unfold NewRegexRule
    rw [hno]

/-- Closed instance of C10: a rule with one unnamed capturing group
falls back to it and yields its text as the candidate. -/
theorem regexRule_first_group_fallback_witness :
    NewRegexRule
      ⟨["", "g"], fun s => if s = "u" then some ["m", "deadbeef"] else none⟩
      "sha1" "u" =
      (if (["m", "deadbeef"].getD 1 "") = "" then []
        else [⟨"sha1", ["m", "deadbeef"].getD 1 ""⟩]) :=
  (regexRule_first_group_fallback
    ⟨["", "g"], fun s => if s = "u" then some ["m", "deadbeef"] else none⟩
    "sha1" "u" ["m", "deadbeef"] (by simp) (by decide) (by decide)).1

end Fetchurl
